import Mathlib

/-!
Verification development for the lens-search backend core
(`backend/app/utils/diff_parser.py`, `backend/app/utils/codebase_indexer.py`,
`backend/app/services/knowledge_retriever.py`).

Python strings are modelled as `List Char` (`Str`). All definitions are
structural (no well-founded recursion), so concrete runs reduce in the kernel.
Python floats (similarity scores / distances) are modelled as `ℚ`: the code
only forms `1 - distance` and compares/sorts, so the ordered-field structure
is the relevant abstraction.  Python character classes (`\d`, `\s`,
`str.strip`) are modelled at their ASCII fragment; the source, via Python's
Unicode semantics, accepts a few more code points, none of which matter to
the properties proved here.
-/

/-- Python strings, modelled as lists of characters. -/
abbrev Str := List Char

/-- ASCII fragment of Python's `str.isspace` / whitespace stripped by `str.strip()`. -/
def pyIsSpace (c : Char) : Bool :=
  c = ' ' || c = '\t' || c = '\n' || c = '\r' || c = '\x0b' || c = '\x0c'

/-- Python `s.strip()`: remove leading and trailing whitespace. -/
def pyStrip (s : Str) : Str :=
  ((s.dropWhile pyIsSpace).reverse.dropWhile pyIsSpace).reverse

/-- Python `s.split('\n')`: split on every newline, keeping empty parts
(`''.split('\n') == ['']`). -/
def splitNL : Str → List Str
  | [] => [[]]
  | c :: cs =>
    if c = '\n' then [] :: splitNL cs
    else
      match splitNL cs with
      | [] => [[c]]
      | p :: ps => (c :: p) :: ps

/-- Python `'\n'.join(lines)`. -/
def joinN : List Str → Str
  | [] => []
  | [l] => l
  | l :: ls => l ++ '\n' :: joinN ls

/-- Python `s.split(sep)` for a fixed non-empty separator: non-overlapping,
left-to-right, empty parts kept.  Fuel-indexed so that the recursion is
structural; `splitSeq` supplies sufficient fuel (each step consumes at least
one character of the remainder). -/
def splitSeqGo (sep : Str) : Nat → Str → Str → List Str
  | 0, acc, rest => [acc.reverse ++ rest]
  | _ + 1, acc, [] => [acc.reverse]
  | fuel + 1, acc, l@(c :: cs) =>
    if sep.isPrefixOf l then acc.reverse :: splitSeqGo sep fuel [] (l.drop sep.length)
    else splitSeqGo sep fuel (c :: acc) cs

/-- Python `s.split(sep)` (non-empty `sep`). -/
def splitSeq (sep : Str) (s : Str) : List Str :=
  splitSeqGo sep (s.length + 1) [] s

/-- If `pat` is a literal prefix of `s`, return the remainder. -/
def afterLit : Str → Str → Option Str
  | [], s => some s
  | _ :: _, [] => none
  | p :: ps, c :: cs => if c = p then afterLit ps cs else none

/-- `int(...)` on a non-empty ASCII digit string (most-significant first). -/
def natOfDigits (ds : Str) : Nat :=
  ds.foldl (fun n c => n * 10 + (c.toNat - 48)) 0

/-- Parse a maximal non-empty run of leading ASCII digits (regex `\d+`),
returning its value and the remainder. -/
def parseDigits (s : Str) : Option (Nat × Str) :=
  let ds := s.takeWhile Char.isDigit
  if ds = [] then none else some (natOfDigits ds, s.dropWhile Char.isDigit)

/-! ## Data model (`backend/app/models/context.py`) -/

/-- `DiffHunk` from `app/models/context.py`: a single contiguous block of
changes; `content` is the raw hunk text, header line included. -/
structure DiffHunk where
  old_start : Nat
  old_lines : Nat
  new_start : Nat
  new_lines : Nat
  content : Str
deriving DecidableEq, Repr

/-- `FileChange` from `app/models/context.py`. -/
structure FileChange where
  path : Str
  additions : Nat
  deletions : Nat
  hunks : List DiffHunk
deriving DecidableEq, Repr

/-! ## Diff parser (`backend/app/utils/diff_parser.py`) -/

def devNull : Str := "/dev/null".toList
def pppMark : Str := "+++".toList
def dddMark : Str := "---".toList
def plusMark : Str := "+".toList
def dashMark : Str := "-".toList
def atAtMark : Str := "@@".toList
def beeSlash : Str := "b/".toList
def diffGitSep : Str := "diff --git".toList

/-- The optional count group `(?:,(\d+))?` of the hunk-header regex: after a
start number, either `,` + digits follow (count captured) or the group is
skipped entirely. -/
def parseOptCount (r : Str) : Option (Option Nat × Str) :=
  match r with
  | ',' :: t => (parseDigits t).map fun (n, r2) => (some n, r2)
  | _ => some ((none : Option Nat), r)

/-- Regex `@@ -(\d+)(?:,(\d+))? \+(\d+)(?:,(\d+))? @@` via `re.match`
(anchored at the start, arbitrary trailing text), before defaulting the
optional counts.  The optional group `(?:,(\d+))?` is deterministic here:
after the digits of a start number the regex requires either `,` + digits or
a space, so no backtracking cases are lost. -/
def parseHunkHeaderRaw (s : Str) : Option (Nat × Option Nat × Nat × Option Nat) := do
  let r0 ← afterLit "@@ -".toList s
  let (a, r1) ← parseDigits r0
  let (ob, r2) ← parseOptCount r1
  let r3 ← afterLit " +".toList r2
  let (c, r4) ← parseDigits r3
  let (nb, r5) ← parseOptCount r4
  let _ ← afterLit " @@".toList r5
  some (a, ob, c, nb)

/-- The text an optional count contributes to a header, prepended to the
remainder `r`: nothing when absent, `,<digits>` when present. -/
def countPart : Option Str → Str → Str
  | none, r => r
  | some d, r => ',' :: (d ++ r)

/-- A well-formed optional count: absent, or a non-empty ASCII digit string. -/
def optDigits : Option Str → Bool
  | none => true
  | some d => !d.isEmpty && d.all Char.isDigit

/-- The hunk-header match of `_parse_hunk`, with omitted counts defaulted to
1 (`int(match.group(2) or 1)`). -/
def parseHunkHeader (s : Str) : Option (Nat × Nat × Nat × Nat) :=
  (parseHunkHeaderRaw s).map fun (a, ob, c, nb) => (a, ob.getD 1, c, nb.getD 1)

/-- Lines of a hunk body: everything up to (excluding) the next `@@` line. -/
def takeUntilHunk (ls : List Str) : List Str :=
  ls.takeWhile fun l => ! atAtMark.isPrefixOf l

/-- `_find_hunk_end`: the suffix starting at the next `@@` line (or empty). -/
def dropUntilHunk (ls : List Str) : List Str :=
  ls.dropWhile fun l => ! atAtMark.isPrefixOf l

/-- `_parse_hunk` at a position whose line is `header` and whose following
lines are `rest`: regex-match the header, collect content until the next
`@@` line. -/
def parse_hunk (header : Str) (rest : List Str) : Option DiffHunk :=
  match parseHunkHeader header with
  | none => none
  | some (a, b, c, d) => some ⟨a, b, c, d, joinN (header :: takeUntilHunk rest)⟩

/-- The hunk-collection `while` loop of `_parse_file_section`: at a line
starting `@@`, try `_parse_hunk`; on success skip to `_find_hunk_end`, on
failure (and on non-`@@` lines) advance one line.  Fuel-indexed to stay
structural; every step strictly shortens the line list, so
`fuel = lines.length` always suffices. -/
def collectHunksGo : Nat → List Str → List DiffHunk
  | 0, _ => []
  | _ + 1, [] => []
  | fuel + 1, l :: rest =>
    if atAtMark.isPrefixOf l then
      match parse_hunk l rest with
      | some h => h :: collectHunksGo fuel (dropUntilHunk rest)
      | none => collectHunksGo fuel rest
    else collectHunksGo fuel rest

def collectHunks (lines : List Str) : List DiffHunk :=
  collectHunksGo lines.length lines

/-- `line.startswith('+') and not line.startswith('+++')`. -/
def addLineB (l : Str) : Bool := plusMark.isPrefixOf l && ! pppMark.isPrefixOf l

/-- `line.startswith('-') and not line.startswith('---')`. -/
def delLineB (l : Str) : Bool := dashMark.isPrefixOf l && ! dddMark.isPrefixOf l

/-- One step of the addition/deletion counting loop of `_parse_file_section`
(the `elif` ordering is as in the source; the two guards are mutually
exclusive anyway). -/
def countLine (acc : Nat × Nat) (line : Str) : Nat × Nat :=
  if addLineB line then (acc.1 + 1, acc.2)
  else if delLineB line then (acc.1, acc.2 + 1)
  else acc

/-- The full counting loop: `(additions, deletions)` over all hunks. -/
def countHunks (hunks : List DiffHunk) : Nat × Nat :=
  hunks.foldl (fun acc h => (splitNL h.content).foldl countLine acc) (0, 0)

/-- Python `path.split('\t')[0]`. -/
def takeTab (s : Str) : Str := s.takeWhile fun c => c ≠ '\t'

/-- Path candidate from the first `+++` line: `line[4:].strip().split('\t')[0]`,
then strip a `b/` prefix; `/dev/null` (without `b/` prefix) yields no
candidate.  `none` models Python's `file_path` staying `None`. -/
def pppCandidate (line : Str) : Option Str :=
  let path := takeTab (pyStrip (line.drop 4))
  if beeSlash.isPrefixOf path then some (path.drop 2)
  else if path ≠ devNull then some path
  else none

/-- The first loop of `_parse_file_section`: scan for the first `+++` line
and take its candidate (the loop `break`s on the first such line whether or
not it produced a path). -/
def primaryPath (lines : List Str) : Option Str :=
  match lines.find? (fun l => pppMark.isPrefixOf l) with
  | some l => pppCandidate l
  | none => none

/-- `re.search(r'b/([^\s]+)', line)`: leftmost occurrence of `b/` followed by
at least one non-whitespace character; the capture is the maximal
non-whitespace run. -/
def bSearch : Str → Option Str
  | 'b' :: '/' :: c :: rest =>
    if pyIsSpace c then bSearch ('/' :: c :: rest)
    else some (c :: rest.takeWhile fun x => ¬ pyIsSpace x)
  | _ :: rest => bSearch rest
  | [] => none

/-- The fallback loop of `_parse_file_section`: first line whose `b/<path>`
search succeeds.  (The `'b/' in line` guard in the source is redundant: the
pattern itself requires the literal `b/`.) -/
def fallbackPath (lines : List Str) : Option Str :=
  lines.findSome? bSearch

/-- The final `if not file_path or file_path == '/dev/null': return None`
guard of `_parse_file_section`. -/
def finalGuard : Option Str → Option Str
  | none => none
  | some p => if p = [] ∨ p = devNull then none else some p

/-- Path resolution of `_parse_file_section`: primary `+++` candidate,
falling back to the `b/<path>` search when the candidate is `None` or empty
(Python truthiness of `not file_path`), then the final guard. -/
def resolvePath (lines : List Str) : Option Str :=
  let fp0 := primaryPath lines
  let fp :=
    if fp0 = none ∨ fp0 = some [] then
      match fallbackPath lines with
      | some q => some q
      | none => fp0
    else fp0
  finalGuard fp

/-- `_parse_file_section`: resolve the path (dropping the section when
unresolvable), collect hunks, derive the counters. -/
def parse_file_section (sec : Str) : Option FileChange :=
  let lines := splitNL sec
  match resolvePath lines with
  | none => none
  | some path =>
    let hunks := collectHunks lines
    let counts := countHunks hunks
    some ⟨path, counts.1, counts.2, hunks⟩

/-- `parse_diff`: empty/whitespace-only input yields `[]`; otherwise split on
`diff --git`, discard the first segment, skip blank segments, and parse each
remaining section. -/
def parse_diff (diff_text : Str) : List FileChange :=
  if diff_text = [] ∨ pyStrip diff_text = [] then []
  else
    ((splitSeq diffGitSep diff_text).drop 1).filterMap fun sec =>
      if pyStrip sec = [] then none else parse_file_section sec

/-! ## Code-unit extractor (`backend/app/utils/codebase_indexer.py`)

`detect_language_from_path` (Pygments lexer lookup), `extract_python_units`
(the `ast` module) and `extract_treesitter_units` (tree-sitter grammars) are
driven by external collaborators; they are passed to `extract_code_units` as
function parameters.  Each of them is total in the source (every exception is
caught inside and yields a unit list), so a plain function models them. -/

/-- A code-unit dict produced by the extractor: keys `code`, `type`, `name`,
and the optional `line_start`/`line_end` pair. -/
structure CodeUnit where
  code : Str
  type : Str
  name : Str
  lineRange : Option (Nat × Nat)
deriving DecidableEq, Repr

def pythonLang : Str := "python".toList
def cppLang : Str := "cpp".toList
def cppAlt : Str := "c++".toList
def fileType : Str := "file".toList

/-- The tree-sitter dispatch list
`["javascript", "typescript", "java", "cpp", "c++", "go"]`. -/
def tsLangs : List Str :=
  ["javascript".toList, "typescript".toList, "java".toList, cppLang, cppAlt,
   "go".toList]

/-- `pathlib.Path(file_path).name`: last path component, ignoring trailing
slashes, repeated slashes and `.` components. -/
def pyName (p : Str) : Str :=
  (((splitSeq ['/'] p).filter fun part => part ≠ [] ∧ part ≠ ['.']).getLast?).getD []

/-- The language dispatch of `extract_code_units` before the whole-file
fallback: AST extraction for Python, tree-sitter extraction for the
registered languages (with `c++` normalized to `cpp`), zero units otherwise. -/
def structuralUnits (detect : Str → Option Str)
    (extractPython : Str → Str → List CodeUnit)
    (extractTS : Str → Str → Str → List CodeUnit)
    (file_path content : Str) : List CodeUnit :=
  match detect file_path with
  | none => []
  | some language =>
    if language = pythonLang then extractPython file_path content
    else if language ∈ tsLangs then
      let language := if language = cppAlt then cppLang else language
      extractTS file_path content language
    else []

/-- `extract_code_units`: blank content yields no units; otherwise dispatch
on the detected language, and fall back to a single whole-file unit when the
structural pass produced nothing. -/
def extract_code_units (detect : Str → Option Str)
    (extractPython : Str → Str → List CodeUnit)
    (extractTS : Str → Str → Str → List CodeUnit)
    (file_path content : Str) : List CodeUnit :=
  if pyStrip content = [] then []
  else
    let units := structuralUnits detect extractPython extractTS file_path content
    if units = [] then [⟨content, fileType, pyName file_path, none⟩]
    else units

/-! ## Similarity retriever (`backend/app/services/knowledge_retriever.py`)

The ChromaDB collection, the Gemini embedding call and the index query are
external collaborators; they are passed in as `Except`-valued parameters
(an `Except.error` models a raised Python exception).  Distances and
similarity scores are modelled as `ℚ`. -/

/-- A raised Python exception. -/
inductive PyExc where
  | valueError (msg : Str)
  | exc (tag : Nat)
deriving DecidableEq, Repr

def keyErrMsg : Str := "GEMINI_API_KEY environment variable not set".toList

/-- `configure_gemini`: take the explicit key, fall back to the
`GEMINI_API_KEY` environment variable when `None`; raise `ValueError` when
the effective key is falsy (absent or empty). -/
def configure_gemini (api_key env_key : Option Str) : Except PyExc Unit :=
  let k := match api_key with
    | none => env_key
    | some s => some s
  match k with
  | none => .error (.valueError keyErrMsg)
  | some s => if s = [] then .error (.valueError keyErrMsg) else .ok ()

/-- `CodePattern` from `app/models/context.py`. -/
structure CodePattern where
  file_path : Str
  code_snippet : Str
  similarity_score : ℚ
  description : Str
deriving DecidableEq, Repr

/-- Vector-store metadata of one neighbor; `none` fields model absent dict
keys (read with `metadata.get`). -/
structure Metadata where
  file_path : Option Str
  type : Option Str
  name : Option Str
deriving DecidableEq, Repr

/-- The parallel sequences returned by `collection.query`. -/
structure QueryResult where
  ids : List (List Str)
  distances : List (List ℚ)
  documents : List (List Str)
  metadatas : List (List Metadata)
deriving DecidableEq, Repr

/-- Python `zip` over four lists (truncates to the shortest). -/
def zip4 : List α → List β → List γ → List δ → List (α × β × γ × δ)
  | a :: as, b :: bs, c :: cs, d :: ds => (a, b, c, d) :: zip4 as bs cs ds
  | _, _, _, _ => []

def squote : Char := Char.ofNat 39

/-- `f"Similar {metadata.get('type', 'code')} '{metadata.get('name', 'unknown')}' found in codebase"`. -/
def patternDescr (meta : Metadata) : Str :=
  "Similar ".toList ++ meta.type.getD "code".toList ++ (' ' :: [squote]) ++
    meta.name.getD "unknown".toList ++ (squote :: " found in codebase".toList)

/-- The `CodePattern` built for one surviving neighbor. -/
def mkCodePattern (dist : ℚ) (doc : Str) (meta : Metadata) : CodePattern :=
  ⟨meta.file_path.getD [], doc, 1 - dist, patternDescr meta⟩

/-- The neighbor loop over one query result: keep neighbors whose similarity
`1 - distance` reaches the threshold and whose stored path is not the changed
file's own path. -/
def keepNeighbor (path : Str) (θ : ℚ) (e : Str × ℚ × Str × Metadata) :
    Option CodePattern :=
  let (_, dist, doc, meta) := e
  if θ ≤ 1 - dist then
    if meta.file_path = some path then none
    else some (mkCodePattern dist doc meta)
  else none

/-- Processing of one `collection.query` result.  `none` models an exception
raised inside the `try` block (`[0]` on an empty parallel list) and swallowed
by the per-hunk `except`; an empty or zero-length `ids` yields no patterns
without an error. -/
def processQueryResult (path : Str) (θ : ℚ) (qr : QueryResult) :
    Option (List CodePattern) :=
  match qr.ids with
  | [] => some []
  | ids0 :: _ =>
    if ids0.length = 0 then some []
    else
      match qr.distances, qr.documents, qr.metadatas with
      | d0 :: _, doc0 :: _, m0 :: _ =>
        some ((zip4 ids0 d0 doc0 m0).filterMap (keepNeighbor path θ))
      | _, _, _ => none

/-- The added lines of a hunk, `+` stripped (`line[1:]`). -/
def addedLines (content : Str) : List Str :=
  (splitNL content).filterMap fun l =>
    if plusMark.isPrefixOf l ∧ ¬ pppMark.isPrefixOf l then some (l.drop 1)
    else none

/-- The `where` filter: the first two path segments as `owner/repo` when the
path contains a separator. -/
def repoFilter (path : Str) : Option Str :=
  if ('/' : Char) ∈ path then
    let parts := splitSeq ['/'] path
    some ((parts.getD 0 []) ++ '/' :: (parts.getD 1 []))
  else none

/-- The per-hunk body of `retrieve_similar_patterns`: build the snippet from
the added lines, skip empty or short snippets, embed and query; an embedding
or query failure (and a malformed query result) makes the hunk contribute
nothing. -/
def hunkPatterns {Emb : Type} (embed : Str → Except PyExc Emb)
    (query : Emb → Nat → Option Str → Except PyExc QueryResult)
    (θ : ℚ) (top_k : Nat) (path : Str) (h : DiffHunk) : List CodePattern :=
  let code_lines := addedLines h.content
  if code_lines = [] then []
  else
    let snippet := joinN code_lines
    if (pyStrip snippet).length < 50 then []
    else
      match embed snippet with
      | .error _ => []
      | .ok e =>
        match query e top_k (repoFilter path) with
        | .error _ => []
        | .ok qr => (processQueryResult path θ qr).getD []

/-- `List.flatMap`, spelled out. -/
def concatMap (f : α → List β) : List α → List β
  | [] => []
  | a :: as => f a ++ concatMap f as

/-- The accumulating double loop of `retrieve_similar_patterns`: all
surviving neighbors, in file order then hunk order. -/
def pooledPatterns {Emb : Type} (embed : Str → Except PyExc Emb)
    (query : Emb → Nat → Option Str → Except PyExc QueryResult)
    (θ : ℚ) (top_k : Nat) (file_changes : List FileChange) : List CodePattern :=
  concatMap (fun fc => concatMap (hunkPatterns embed query θ top_k fc.path) fc.hunks)
    file_changes

/-- Stable insertion into a descending-by-similarity list: a new element goes
after every element with similarity ≥ its own. -/
def insertDesc (p : CodePattern) : List CodePattern → List CodePattern
  | [] => [p]
  | q :: rest =>
    if q.similarity_score < p.similarity_score then p :: q :: rest
    else q :: insertDesc p rest

/-- `patterns.sort(key=lambda x: x.similarity_score, reverse=True)`: Python's
sort is stable, and a stable descending sort is extensionally unique, so
stable insertion sort models it exactly. -/
def sortBySimDesc (l : List CodePattern) : List CodePattern :=
  l.foldl (fun acc p => insertDesc p acc) []

/-- The dedup key `(pattern.file_path, pattern.code_snippet[:100])`. -/
def dedupKey (p : CodePattern) : Str × Str :=
  (p.file_path, p.code_snippet.take 100)

/-- The dedup loop with the `len(unique_patterns) >= top_k * 3: break` guard:
`budget` is how many more unique entries may be appended before the break
fires (initially `top_k * 3`; the loop appends once more and then breaks when
the budget is exhausted, matching the post-append length test). -/
def dedupLimited : Nat → List (Str × Str) → List CodePattern → List CodePattern
  | _, _, [] => []
  | budget, seen, p :: rest =>
    if dedupKey p ∈ seen then dedupLimited budget seen rest
    else if budget ≤ 1 then [p]
    else p :: dedupLimited (budget - 1) (dedupKey p :: seen) rest

/-- `retrieve_similar_patterns`.  `configure_gemini` and
`get_or_create_vector_db` run before the `try`-protected loop, so their
failures propagate; everything after is total.  The result is the sorted,
deduplicated pool truncated to `top_k * 2`. -/
def retrieve_similar_patterns {Col Emb : Type}
    (env_key api_key : Option Str)
    (getDb : Except PyExc Col)
    (embed : Str → Except PyExc Emb)
    (query : Col → Emb → Nat → Option Str → Except PyExc QueryResult)
    (file_changes : List FileChange) (top_k : Nat) (θ : ℚ) :
    Except PyExc (List CodePattern) :=
  match configure_gemini api_key env_key with
  | .error e => .error e
  | .ok _ =>
    match getDb with
    | .error e => .error e
    | .ok col =>
      let pool := pooledPatterns embed (query col) θ top_k file_changes
      .ok ((dedupLimited (top_k * 3) [] (sortBySimDesc pool)).take (top_k * 2))

/-! ## Concrete inputs used by the witnesses -/

/-- A two-hunk single-file diff used by the C4 witness. -/
def w4Diff : Str :=
  "diff --git a/x.py b/x.py\n+++ b/x.py\n@@ -1,2 +1,2 @@\n-a\n+b\n@@ -9 +9,2 @@\n+c\n".toList

/-- `parse_diff w4Diff`'s single entry. -/
def w4FC : FileChange :=
  ⟨"x.py".toList, 2, 1,
   [⟨1, 2, 1, 2, "@@ -1,2 +1,2 @@\n-a\n+b".toList⟩,
    ⟨9, 1, 9, 2, "@@ -9 +9,2 @@\n+c\n".toList⟩]⟩

/-- A hunk with one added line of 56 characters (above the 50-character
snippet minimum), used by the retrieval witnesses. -/
def wLongHunk : DiffHunk :=
  ⟨1, 1, 1, 2,
   "@@ -1 +1,2 @@\n+aaaaaaaaaaaaaaaaaaaaaaaaaaaaaaaaaaaaaaaaaaaaaaaaaaaaaaaa".toList⟩

/-- A one-neighbor query result (distance 0, metadata without a stored
path), used by the retrieval witnesses. -/
def wQR : QueryResult := ⟨[["i1".toList]], [[0]], [["doc".toList]], [[⟨none, none, none⟩]]⟩

/-- The changed file querying `wQR`. -/
def wRetFC : FileChange := ⟨"ab".toList, 1, 0, [wLongHunk]⟩

/-- The single pattern retrieved from `wQR`. -/
def wPat : CodePattern := mkCodePattern 0 "doc".toList ⟨none, none, none⟩

/-! ## Generic helpers -/

/-- Binder-free "every member satisfies `P`". -/
def allOf (P : α → Prop) : List α → Prop
  | [] => True
  | a :: as => P a ∧ allOf P as

/-- The C10 invariant on a parsed hunk: its content's first line is its `@@`
header, no later content line starts with `@@`, and re-matching the first
line against the hunk-header pattern returns exactly the stored numbers. -/
def hunkShape (h : DiffHunk) : Prop :=
  splitNL h.content ≠ [] ∧
  atAtMark.isPrefixOf (splitNL h.content).headI = true ∧
  parseHunkHeader (splitNL h.content).headI =
    some (h.old_start, h.old_lines, h.new_start, h.new_lines) ∧
  allOf (fun b => atAtMark.isPrefixOf b = false) (splitNL h.content).tail

/-- Whether an `Except` value is a success (no exception raised). -/
def exceptOk : Except ε α → Bool
  | .ok _ => true
  | .error _ => false

/-- The C6 guarantee for one returned pattern: its similarity score reaches
the threshold, and it was built (by `mkCodePattern`, so with
`similarity_score = 1 - distance`) from a neighbor of some changed file in
the input whose stored metadata path differs from that file's own path. -/
def goodPattern (θ : ℚ) (fcs : List FileChange) (p : CodePattern) : Prop :=
  θ ≤ p.similarity_score ∧
  ∃ fc ∈ fcs, ∃ dist doc meta, θ ≤ 1 - dist ∧
    meta.file_path ≠ some fc.path ∧ p = mkCodePattern dist doc meta

theorem allOf_iff {P : α → Prop} : ∀ {l : List α}, allOf P l ↔ ∀ a ∈ l, P a
  | [] => by simp [allOf]
  | a :: as => by simp [allOf, allOf_iff (l := as)]

theorem mem_concatMap {f : α → List β} {b : β} :
    ∀ {l : List α}, b ∈ concatMap f l ↔ ∃ a ∈ l, b ∈ f a
  | [] => by simp [concatMap]
  | a :: as => by
    simp [concatMap, List.mem_append, mem_concatMap (l := as)]

theorem concatMap_eq_nil {f : α → List β} :
    ∀ {l : List α}, (∀ a ∈ l, f a = []) → concatMap f l = []
  | [], _ => rfl
  | a :: as, h => by
    simp [concatMap, h a (by simp), concatMap_eq_nil (l := as) (fun x hx => h x (by simp [hx]))]

theorem afterLit_append : ∀ (pat r : Str), afterLit pat (pat ++ r) = some r
  | [], _ => rfl
  | p :: ps, r => by simp [afterLit, afterLit_append ps r]

theorem takeWhile_append_of {p : α → Bool} {y : α} (hy : p y = false) :
    ∀ {a : List α}, (∀ x ∈ a, p x = true) →
      ∀ r, (a ++ y :: r).takeWhile p = a ∧ (a ++ y :: r).dropWhile p = y :: r
  | [], _, r => by simp [List.takeWhile, List.dropWhile, hy]
  | x :: xs, ha, r => by
    have hx : p x = true := ha x (by simp)
    have ih := takeWhile_append_of hy (a := xs) (fun z hz => ha z (by simp [hz])) r
    simp [List.takeWhile, List.dropWhile, hx, ih.1, ih.2]

theorem parseDigits_append {a : Str} {y : Char} (ha : a ≠ [])
    (hda : ∀ ch ∈ a, ch.isDigit = true) (hy : y.isDigit = false) (r : Str) :
    parseDigits (a ++ y :: r) = some (natOfDigits a, y :: r) := by
  have h := takeWhile_append_of hy hda r
  simp [parseDigits, h.1, h.2, ha]

/-! ## C9: blank input -/

/-- C9. `parse_diff` applied to an empty or whitespace-only string returns
the empty list (and in particular does not fail). -/
theorem c9_blank_input (s : Str) (h : ∀ c ∈ s, pyIsSpace c = true) :
    parse_diff s = [] := by
  have h1 : s.dropWhile pyIsSpace = [] := by
    induction s with
    | nil => rfl
    | cons c cs ih =>
      have hc := h c (by simp)
      have ih' := ih fun x hx => h x (by simp [hx])
      simp [List.dropWhile, hc, ih']
  have hs : pyStrip s = [] := by simp [pyStrip, h1]
  simp [parse_diff, hs]

/-- Witness for C9 at a concrete whitespace-only input. -/
theorem c9_blank_input_wit : parse_diff "  \n\t ".toList = [] :=
  c9_blank_input _ (by decide)

/-! ## C7: malformed hunk headers are skipped -/

/-- C7. A line that starts with `@@` but does not match the hunk-header
pattern contributes no hunk, and scanning resumes at the next line: the hunk
scan of the remaining lines is exactly the scan without the malformed line.
(Other files are unaffected by construction: `parse_diff` parses each
`diff --git` section independently.) -/
theorem c7_malformed_header_skipped (l : Str) (rest : List Str)
    (h1 : atAtMark.isPrefixOf l = true) (h2 : parseHunkHeader l = none) :
    collectHunks (l :: rest) = collectHunks rest := by
  have hp : parse_hunk l rest = none := by simp [parse_hunk, h2]
  simp [collectHunks, collectHunksGo, h1, hp]

/-- Witness for C7: a concrete malformed header inside a section that also
holds a well-formed hunk; that hunk is still collected. -/
theorem c7_malformed_header_skipped_wit :
    collectHunks ["@@ bogus @@".toList, "@@ -1 +1 @@".toList, "+x".toList] =
      collectHunks ["@@ -1 +1 @@".toList, "+x".toList] :=
  c7_malformed_header_skipped _ _ (by decide) (by decide)

/-! ## C8: omitted hunk counts default to 1 -/

theorem parseDigits_countPart {a : Str} (ha : a ≠ [])
    (hda : ∀ ch ∈ a, ch.isDigit = true) {o : Option Str}
    (ho : optDigits o = true) (X : Str) :
    parseDigits (a ++ countPart o (' ' :: X)) =
      some (natOfDigits a, countPart o (' ' :: X)) ∧
    parseOptCount (countPart o (' ' :: X)) = some (o.map natOfDigits, ' ' :: X) := by
  cases o with
  | none =>
    exact ⟨parseDigits_append ha hda (by decide) _, rfl⟩
  | some d =>
    have h1 := ho
    simp only [optDigits, Bool.and_eq_true, Bool.not_eq_true', List.all_eq_true] at h1
    have hd1 : d ≠ [] := by
      intro hev
      rw [hev] at h1
      simp [List.isEmpty] at h1
    constructor
    · exact parseDigits_append ha hda (by decide) _
    · have hdd := parseDigits_append hd1 h1.2
        (show (' ' : Char).isDigit = false from by decide) X
      simp [countPart, parseOptCount, hdd]

/-- C8. For every hunk header of the shape `@@ -a[,b] +c[,d] @@…`, with each
count independently present or omitted, `_parse_hunk` yields a `DiffHunk`
whose `old_lines` defaults to 1 exactly when the old count is absent (and is
the given count otherwise), whose `new_lines` defaults to 1 exactly when the
new count is absent, and whose start numbers are parsed as given. -/
theorem c8_default_counts (a c : Str) (ob nb : Option Str) (t : Str)
    (rest : List Str) (ha : a ≠ []) (hc : c ≠ [])
    (hda : ∀ ch ∈ a, ch.isDigit = true) (hdc : ∀ ch ∈ c, ch.isDigit = true)
    (hob : optDigits ob = true) (hnb : optDigits nb = true) :
    parse_hunk ("@@ -".toList ++
        (a ++ countPart ob (' ' :: '+' :: (c ++ countPart nb (' ' :: '@' :: '@' :: t))))) rest =
      some ⟨natOfDigits a, (ob.map natOfDigits).getD 1,
        natOfDigits c, (nb.map natOfDigits).getD 1,
        joinN (("@@ -".toList ++
          (a ++ countPart ob (' ' :: '+' :: (c ++ countPart nb (' ' :: '@' :: '@' :: t))))) ::
          takeUntilHunk rest)⟩ := by
  obtain ⟨hpa, hoa⟩ := parseDigits_countPart ha hda hob
    ('+' :: (c ++ countPart nb (' ' :: '@' :: '@' :: t)))
  obtain ⟨hpc, hoc⟩ := parseDigits_countPart hc hdc hnb ('@' :: '@' :: t)
  have h0 : afterLit "@@ -".toList
      ("@@ -".toList ++
        (a ++ countPart ob (' ' :: '+' :: (c ++ countPart nb (' ' :: '@' :: '@' :: t))))) =
      some (a ++ countPart ob (' ' :: '+' :: (c ++ countPart nb (' ' :: '@' :: '@' :: t)))) :=
    afterLit_append "@@ -".toList _
  have hraw : parseHunkHeaderRaw
      ("@@ -".toList ++
        (a ++ countPart ob (' ' :: '+' :: (c ++ countPart nb (' ' :: '@' :: '@' :: t))))) =
      some (natOfDigits a, ob.map natOfDigits, natOfDigits c, nb.map natOfDigits) := by
    simp [parseHunkHeaderRaw, h0, hpa, hoa, hpc, hoc, afterLit]
  have hraw2 : parseHunkHeaderRaw
      ('@' :: '@' :: ' ' :: '-' ::
        (a ++ countPart ob (' ' :: '+' :: (c ++ countPart nb (' ' :: '@' :: '@' :: t))))) =
      some (natOfDigits a, ob.map natOfDigits, natOfDigits c, nb.map natOfDigits) := hraw
  simp [parse_hunk, parseHunkHeader, hraw2]

/-- Witness for C8 at the spec's own example `@@ -5 +7 @@` and at the two
mixed-omission headers `@@ -5,3 +7 @@` and `@@ -9 +9,2 @@`. -/
theorem c8_default_counts_wit :
    parse_hunk "@@ -5 +7 @@".toList [] =
      some ⟨5, 1, 7, 1, "@@ -5 +7 @@".toList⟩ ∧
    parse_hunk "@@ -5,3 +7 @@".toList [] =
      some ⟨5, 3, 7, 1, "@@ -5,3 +7 @@".toList⟩ ∧
    parse_hunk "@@ -9 +9,2 @@".toList [] =
      some ⟨9, 1, 9, 2, "@@ -9 +9,2 @@".toList⟩ :=
  ⟨c8_default_counts ['5'] ['7'] none none [] []
    (by decide) (by decide) (by decide) (by decide) (by decide) (by decide),
   c8_default_counts ['5'] ['7'] (some ['3']) none [] []
    (by decide) (by decide) (by decide) (by decide) (by decide) (by decide),
   c8_default_counts ['9'] ['9'] none (some ['2']) [] []
    (by decide) (by decide) (by decide) (by decide) (by decide) (by decide)⟩

/-! ## Extraction lemmas for `parse_diff` members -/

theorem parse_file_section_eq {sec : Str} {fc : FileChange}
    (h : parse_file_section sec = some fc) :
    ∃ path, resolvePath (splitNL sec) = some path ∧
      fc = ⟨path, (countHunks (collectHunks (splitNL sec))).1,
        (countHunks (collectHunks (splitNL sec))).2, collectHunks (splitNL sec)⟩ := by
  cases hres : resolvePath (splitNL sec) with
  | none => simp [parse_file_section, hres] at h
  | some path =>
    refine ⟨path, rfl, ?_⟩
    simp only [parse_file_section, hres] at h
    simpa using h.symm

theorem mem_parse_diff {s : Str} {fc : FileChange} (h : fc ∈ parse_diff s) :
    ∃ sec, parse_file_section sec = some fc := by
  unfold parse_diff at h
  split at h
  · exact absurd h (by simp)
  · obtain ⟨sec, -, hsec⟩ := List.mem_filterMap.mp h
    refine ⟨sec, ?_⟩
    by_cases hb : pyStrip sec = []
    · simp [hb] at hsec
    · simpa [hb] using hsec

theorem finalGuard_some {o : Option Str} {p : Str}
    (h : finalGuard o = some p) : p ≠ [] ∧ p ≠ devNull := by
  match o with
  | none => exact absurd h (by simp [finalGuard])
  | some q =>
    by_cases hq : q = [] ∨ q = devNull
    · simp [finalGuard, hq] at h
    · obtain rfl : q = p := by simpa [finalGuard, hq] using h
      push_neg at hq
      exact hq

theorem resolvePath_some {lines : List Str} {p : Str}
    (h : resolvePath lines = some p) : p ≠ [] ∧ p ≠ devNull :=
  finalGuard_some h

/-! ## C1: no null or `/dev/null` paths survive -/

/-- C1. Every `FileChange` returned by `parse_diff` has a non-empty path that
is not the `/dev/null` sentinel; a section whose path resolution fails is
dropped (`_parse_file_section` yields nothing for it). -/
theorem c1_no_null_path (s sec : Str) (fc : FileChange) (h : fc ∈ parse_diff s) :
    (fc.path ≠ [] ∧ fc.path ≠ devNull) ∧
      (resolvePath (splitNL sec) = none → parse_file_section sec = none) := by
  constructor
  · obtain ⟨sec', hsec⟩ := mem_parse_diff h
    obtain ⟨path, hres, rfl⟩ := parse_file_section_eq hsec
    exact resolvePath_some hres
  · intro h0
    unfold parse_file_section
    simp [h0]

/-- Witness for C1: a parsed one-file diff, and a section with no resolvable
path (its `+++` side is `/dev/null` and no `b/<path>` token occurs). -/
theorem c1_no_null_path_wit :
    (("x.py".toList ≠ ([] : Str)) ∧ "x.py".toList ≠ devNull) ∧
      (resolvePath (splitNL " 1 2\n--- a/x.py\n+++ /dev/null\n@@ -1 +0,0 @@\n-a\n".toList) = none →
        parse_file_section " 1 2\n--- a/x.py\n+++ /dev/null\n@@ -1 +0,0 @@\n-a\n".toList = none) := by
  have hmem : (⟨"x.py".toList, 1, 0,
      [⟨1, 2, 1, 3, "@@ -1,2 +1,3 @@\n ctx\n+new\n".toList⟩]⟩ : FileChange) ∈
      parse_diff "diff --git a/x.py b/x.py\n--- a/x.py\n+++ b/x.py\n@@ -1,2 +1,3 @@\n ctx\n+new\n".toList := by
    decide
  exact c1_no_null_path _ _ _ hmem

/-! ## C4: addition/deletion counters -/

theorem add_del_mut {l : Str} (hA : addLineB l = true) : delLineB l = false := by
  cases l with
  | nil => simp [addLineB, plusMark, List.isPrefixOf] at hA
  | cons c cs =>
    simp only [addLineB, Bool.and_eq_true] at hA
    have h1 := hA.1
    simp only [plusMark] at h1
    rw [show ("+".toList = ['+']) from rfl] at h1
    simp [List.isPrefixOf] at h1
    subst h1
    simp [delLineB, dashMark, List.isPrefixOf]

theorem countLine_eq (acc : Nat × Nat) (l : Str) :
    countLine acc l =
      (acc.1 + (if addLineB l then 1 else 0), acc.2 + (if delLineB l then 1 else 0)) := by
  rcases hA : addLineB l with _ | _
  · rcases hD : delLineB l with _ | _ <;> simp [countLine, hA, hD]
  · have hD := add_del_mut hA
    simp [countLine, hA, hD]

theorem foldl_countLine :
    ∀ (lines : List Str) (acc : Nat × Nat),
      lines.foldl countLine acc =
        (acc.1 + lines.countP addLineB, acc.2 + lines.countP delLineB)
  | [], acc => by simp
  | l :: rest, acc => by
    rw [List.foldl_cons, countLine_eq, foldl_countLine rest]
    rcases hA : addLineB l with _ | _ <;> rcases hD : delLineB l with _ | _ <;>
      simp [List.countP_cons, hA, hD] <;> omega

theorem countHunks_eq (hunks : List DiffHunk) :
    countHunks hunks =
      ((hunks.map fun h => (splitNL h.content).countP addLineB).sum,
       (hunks.map fun h => (splitNL h.content).countP delLineB).sum) := by
  suffices H : ∀ (hs : List DiffHunk) (acc : Nat × Nat),
      hs.foldl (fun acc h => (splitNL h.content).foldl countLine acc) acc =
        (acc.1 + (hs.map fun h => (splitNL h.content).countP addLineB).sum,
         acc.2 + (hs.map fun h => (splitNL h.content).countP delLineB).sum) by
    simpa [countHunks] using H hunks (0, 0)
  intro hs
  induction hs with
  | nil => simp
  | cons h rest ih =>
    intro acc
    rw [List.foldl_cons, foldl_countLine, ih]
    simp
    omega

/-- C4. For every `FileChange` returned by `parse_diff`, `additions` is the
number of lines across its hunks' content starting with `+` but not `+++`,
and `deletions` the number starting with `-` but not `---`. -/
theorem c4_counts (s : Str) (fc : FileChange) (h : fc ∈ parse_diff s) :
    fc.additions = (fc.hunks.map fun hk => (splitNL hk.content).countP addLineB).sum ∧
    fc.deletions = (fc.hunks.map fun hk => (splitNL hk.content).countP delLineB).sum := by
  obtain ⟨sec, hsec⟩ := mem_parse_diff h
  obtain ⟨path, -, rfl⟩ := parse_file_section_eq hsec
  simp [countHunks_eq]

/-- Witness for C4 on a concrete two-hunk diff (2 additions, 1 deletion). -/
theorem c4_counts_wit :
    w4FC.additions = (w4FC.hunks.map fun hk => (splitNL hk.content).countP addLineB).sum ∧
    w4FC.deletions = (w4FC.hunks.map fun hk => (splitNL hk.content).countP delLineB).sum :=
  c4_counts w4Diff w4FC (by decide)

/-! ## C10: hunk content shape -/

theorem splitNL_ne_nil : ∀ (s : Str), splitNL s ≠ []
  | [] => by simp [splitNL]
  | c :: cs => by
    by_cases h : c = '\n'
    · simp [splitNL, h]
    · cases hcs : splitNL cs with
      | nil => simp [splitNL, h, hcs]
      | cons p ps => simp [splitNL, h, hcs]

theorem not_mem_nl_splitNL : ∀ (s : Str) (l : Str), l ∈ splitNL s → ('\n' : Char) ∉ l
  | [], l, hl => by
    simp [splitNL] at hl
    simp [hl]
  | c :: cs, l, hl => by
    by_cases h : c = '\n'
    · rw [splitNL, if_pos h] at hl
      rcases List.mem_cons.mp hl with rfl | hmem
      · simp
      · exact not_mem_nl_splitNL cs l hmem
    · rw [splitNL, if_neg h] at hl
      cases hcs : splitNL cs with
      | nil => exact absurd hcs (splitNL_ne_nil cs)
      | cons p ps =>
        rw [hcs] at hl
        rcases List.mem_cons.mp hl with rfl | hmem
        · have hp : ('\n' : Char) ∉ p :=
            not_mem_nl_splitNL cs p (hcs ▸ List.mem_cons_self p ps)
          simp [h, hp]
          exact fun hc => absurd hc.symm h
        · exact not_mem_nl_splitNL cs l (hcs ▸ List.mem_cons_of_mem p hmem)

theorem splitNL_no_nl : ∀ {l : Str}, ('\n' : Char) ∉ l → splitNL l = [l]
  | [], _ => rfl
  | c :: cs, h => by
    have hc : ¬ c = '\n' := fun hev => h (hev ▸ List.mem_cons_self c cs)
    have ih : splitNL cs = [cs] := splitNL_no_nl fun hm => h (List.mem_cons_of_mem c hm)
    rw [splitNL, if_neg hc, ih]

theorem splitNL_append : ∀ {l : Str} (r : Str), ('\n' : Char) ∉ l →
    splitNL (l ++ '\n' :: r) = l :: splitNL r
  | [], r, _ => by simp [splitNL]
  | c :: cs, r, h => by
    have hc : ¬ c = '\n' := fun hev => h (hev ▸ List.mem_cons_self c cs)
    have ih := splitNL_append (l := cs) r fun hm => h (List.mem_cons_of_mem c hm)
    rw [List.cons_append, splitNL, if_neg hc, ih]

theorem splitNL_joinN : ∀ {ls : List Str}, ls ≠ [] → (∀ l ∈ ls, ('\n' : Char) ∉ l) →
    splitNL (joinN ls) = ls
  | [], h, _ => absurd rfl h
  | [l], _, hnl => by
    rw [joinN, splitNL_no_nl (hnl l (by simp))]
  | l :: l2 :: ls, _, hnl => by
    have ih := @splitNL_joinN (l2 :: ls) (List.cons_ne_nil l2 ls)
      fun x hx => hnl x (List.mem_cons_of_mem l hx)
    rw [show joinN (l :: l2 :: ls) = l ++ '\n' :: joinN (l2 :: ls) from rfl,
      splitNL_append _ (hnl l (by simp)), ih]

theorem collectHunksGo_shape :
    ∀ (fuel : Nat) (ls : List Str), (∀ l ∈ ls, ('\n' : Char) ∉ l) →
      ∀ h ∈ collectHunksGo fuel ls, hunkShape h := by
  intro fuel
  induction fuel with
  | zero => intro ls _ h hh; simp [collectHunksGo] at hh
  | succ n ih =>
    intro ls hnl h hh
    match ls with
    | [] => simp [collectHunksGo] at hh
    | l :: rest =>
      have hrest : ∀ x ∈ rest, ('\n' : Char) ∉ x :=
        fun x hx => hnl x (List.mem_cons_of_mem l hx)
      rw [collectHunksGo] at hh
      by_cases hpre : atAtMark.isPrefixOf l = true
      · rw [if_pos hpre] at hh
        cases hp : parse_hunk l rest with
        | none => rw [hp] at hh; exact ih rest hrest h hh
        | some h0 =>
          rw [hp] at hh
          rcases List.mem_cons.mp hh with rfl | hmem
          · -- the freshly parsed hunk
            unfold parse_hunk at hp
            cases hhdr : parseHunkHeader l with
            | none => rw [hhdr] at hp; exact absurd hp (by simp)
            | some quad =>
              obtain ⟨a, b, c, d⟩ := quad
              rw [hhdr] at hp
              obtain rfl : (⟨a, b, c, d, joinN (l :: takeUntilHunk rest)⟩ : DiffHunk) = h := by
                simpa using hp
              have hbody : ∀ x ∈ takeUntilHunk rest, ('\n' : Char) ∉ x :=
                fun x hx => hrest x ((List.takeWhile_sublist _).subset hx)
              have hsplit : splitNL (joinN (l :: takeUntilHunk rest)) = l :: takeUntilHunk rest := by
                refine splitNL_joinN (by simp) ?_
                intro x hx
                rcases List.mem_cons.mp hx with rfl | hx2
                · exact hnl x (by simp)
                · exact hbody x hx2
              refine ⟨by simp [hsplit], by simp [hsplit, hpre], by simp [hsplit, hhdr], ?_⟩
              rw [hsplit]
              simp only [List.tail_cons]
              rw [allOf_iff]
              intro x hx
              have := List.mem_takeWhile_imp hx
              simpa using this
          · exact ih (dropUntilHunk rest)
              (fun x hx => hrest x ((List.dropWhile_sublist _).subset hx)) h hmem
      · rw [if_neg hpre] at hh
        exact ih rest hrest h hh

/-- C10. Every hunk of every `FileChange` returned by `parse_diff` has
content whose first line is its `@@` header (re-matching it yields exactly
the stored start/count numbers) and whose remaining lines never start with
`@@`. -/
theorem c10_hunk_content (s : Str) (fc : FileChange) (hfc : fc ∈ parse_diff s)
    (hk : DiffHunk) (hh : hk ∈ fc.hunks) : hunkShape hk := by
  obtain ⟨sec, hsec⟩ := mem_parse_diff hfc
  obtain ⟨path, -, rfl⟩ := parse_file_section_eq hsec
  simp only at hh
  exact collectHunksGo_shape _ _ (fun l hl => not_mem_nl_splitNL sec l hl) hk hh

/-- Witness for C10 at the first hunk of the concrete diff `w4Diff`. -/
theorem c10_hunk_content_wit : hunkShape ⟨1, 2, 1, 2, "@@ -1,2 +1,2 @@\n-a\n+b".toList⟩ :=
  c10_hunk_content w4Diff w4FC (by decide) _ (by decide)

/-! ## C3: extractor fallback -/

/-- Counterexample to C3 as stated: content consisting of a single space is
non-empty, yet `extract_code_units` returns no unit at all (the source
checks `content.strip()`, so whitespace-only content is treated like empty
content). -/
theorem c3_counterexample :
    ([' '] : Str) ≠ [] ∧
    extract_code_units (fun _ => none) (fun _ _ => []) (fun _ _ _ => [])
      "x.py".toList [' '] = [] := by
  constructor
  · simp
  · decide

/-- C3 (amended): content that is empty *or whitespace-only* yields no units;
content with at least one non-whitespace character always yields at least one
unit, and exactly the single whole-file `file` unit (named by the file's base
name, with no line range) whenever structural extraction yields zero units. -/
theorem c3_amended (detect : Str → Option Str)
    (extractPython : Str → Str → List CodeUnit)
    (extractTS : Str → Str → Str → List CodeUnit) (path content : Str) :
    (pyStrip content = [] →
      extract_code_units detect extractPython extractTS path content = []) ∧
    (pyStrip content ≠ [] →
      extract_code_units detect extractPython extractTS path content ≠ [] ∧
      (structuralUnits detect extractPython extractTS path content = [] →
        extract_code_units detect extractPython extractTS path content =
          [⟨content, fileType, pyName path, none⟩])) := by
  refine ⟨fun hb => by simp [extract_code_units, hb], fun hnb => ?_⟩
  constructor
  · unfold extract_code_units
    rw [if_neg hnb]
    by_cases hu : structuralUnits detect extractPython extractTS path content = []
    · simp [hu]
    · simp [hu]
  · intro hu
    unfold extract_code_units
    rw [if_neg hnb]
    simp [hu]

/-- Witness for C3's amended statement: whitespace-only content yields `[]`;
for `path = "src/x.py"`, `content = "abc"` and collaborators finding nothing,
the single whole-file fallback unit is produced. -/
theorem c3_amended_wit :
    extract_code_units (fun _ => none) (fun _ _ => []) (fun _ _ _ => [])
      "src/x.py".toList "\t\n".toList = [] ∧
    extract_code_units (fun _ => none) (fun _ _ => []) (fun _ _ _ => [])
      "src/x.py".toList "abc".toList ≠ [] ∧
    extract_code_units (fun _ => none) (fun _ _ => []) (fun _ _ _ => [])
      "src/x.py".toList "abc".toList =
      [⟨"abc".toList, fileType, pyName "src/x.py".toList, none⟩] :=
  ⟨(c3_amended _ _ _ _ _).1 (by decide),
   ((c3_amended _ _ _ _ _).2 (by decide)).1,
   ((c3_amended _ _ _ _ _).2 (by decide)).2 (by decide)⟩

/-! ## Retriever lemmas: sorting and dedup -/

theorem mem_insertDesc {p q : CodePattern} :
    ∀ {l : List CodePattern}, q ∈ insertDesc p l ↔ q = p ∨ q ∈ l
  | [] => by simp [insertDesc]
  | r :: rest => by
    by_cases h : r.similarity_score < p.similarity_score
    · rw [insertDesc, if_pos h]
      simp
    · rw [insertDesc, if_neg h]
      simp [mem_insertDesc (l := rest)]
      tauto

theorem sorted_insertDesc {p : CodePattern} :
    ∀ {l : List CodePattern},
      l.Pairwise (fun a b => b.similarity_score ≤ a.similarity_score) →
      (insertDesc p l).Pairwise (fun a b => b.similarity_score ≤ a.similarity_score)
  | [], _ => by simp [insertDesc]
  | r :: rest, hl => by
    obtain ⟨hr, hrest⟩ := List.pairwise_cons.mp hl
    by_cases h : r.similarity_score < p.similarity_score
    · rw [insertDesc, if_pos h]
      refine List.pairwise_cons.mpr ⟨?_, hl⟩
      intro x hx
      rcases List.mem_cons.mp hx with rfl | hx2
      · exact le_of_lt h
      · exact (hr x hx2).trans (le_of_lt h)
    · rw [insertDesc, if_neg h]
      refine List.pairwise_cons.mpr ⟨?_, sorted_insertDesc hrest⟩
      intro x hx
      rcases mem_insertDesc.mp hx with rfl | hx2
      · exact not_lt.mp h
      · exact hr x hx2

theorem sorted_sortAux :
    ∀ (l acc : List CodePattern),
      acc.Pairwise (fun a b => b.similarity_score ≤ a.similarity_score) →
      (l.foldl (fun acc p => insertDesc p acc) acc).Pairwise
        (fun a b => b.similarity_score ≤ a.similarity_score)
  | [], _, h => h
  | _ :: rest, _, h => sorted_sortAux rest _ (sorted_insertDesc h)

theorem sorted_sortBySimDesc (l : List CodePattern) :
    (sortBySimDesc l).Pairwise (fun a b => b.similarity_score ≤ a.similarity_score) :=
  sorted_sortAux l [] (by simp)

theorem mem_sortAux :
    ∀ (l acc : List CodePattern) (q : CodePattern),
      q ∈ l.foldl (fun acc p => insertDesc p acc) acc ↔ q ∈ acc ∨ q ∈ l
  | [], acc, q => by simp
  | p :: rest, acc, q => by
    rw [List.foldl_cons, mem_sortAux rest]
    simp [mem_insertDesc]
    tauto

theorem mem_sortBySimDesc {l : List CodePattern} {q : CodePattern} :
    q ∈ sortBySimDesc l ↔ q ∈ l := by
  rw [sortBySimDesc, mem_sortAux]
  simp

theorem dedupLimited_sublist :
    ∀ (b : Nat) (seen : List (Str × Str)) (l : List CodePattern),
      (dedupLimited b seen l).Sublist l
  | _, _, [] => by simp [dedupLimited]
  | b, seen, p :: rest => by
    rw [dedupLimited]
    by_cases h : dedupKey p ∈ seen
    · rw [if_pos h]
      exact (dedupLimited_sublist b seen rest).cons p
    · rw [if_neg h]
      by_cases hb : b ≤ 1
      · rw [if_pos hb]
        exact (List.nil_sublist rest).cons₂ p
      · rw [if_neg hb]
        exact (dedupLimited_sublist (b - 1) _ rest).cons₂ p

theorem dedupLimited_notMem_seen :
    ∀ (b : Nat) (seen : List (Str × Str)) (l : List CodePattern) (p : CodePattern),
      p ∈ dedupLimited b seen l → dedupKey p ∉ seen
  | b, seen, [], p => by simp [dedupLimited]
  | b, seen, q :: rest, p => by
    rw [dedupLimited]
    by_cases h : dedupKey q ∈ seen
    · rw [if_pos h]
      exact dedupLimited_notMem_seen b seen rest p
    · rw [if_neg h]
      by_cases hb : b ≤ 1
      · rw [if_pos hb]
        intro hp
        obtain rfl : p = q := by simpa using hp
        exact fun hmem => h hmem
      · rw [if_neg hb]
        intro hp
        rcases List.mem_cons.mp hp with rfl | hp2
        · exact fun hmem => h hmem
        · have := dedupLimited_notMem_seen (b - 1) (dedupKey q :: seen) rest p hp2
          exact fun hmem => this (List.mem_cons_of_mem _ hmem)

theorem dedupLimited_pairwise :
    ∀ (b : Nat) (seen : List (Str × Str)) (l : List CodePattern),
      (dedupLimited b seen l).Pairwise (fun a b => dedupKey a ≠ dedupKey b)
  | b, seen, [] => by simp [dedupLimited]
  | b, seen, q :: rest => by
    rw [dedupLimited]
    by_cases h : dedupKey q ∈ seen
    · rw [if_pos h]
      exact dedupLimited_pairwise b seen rest
    · rw [if_neg h]
      by_cases hb : b ≤ 1
      · rw [if_pos hb]
        simp
      · rw [if_neg hb]
        refine List.pairwise_cons.mpr ⟨?_, dedupLimited_pairwise (b - 1) _ rest⟩
        intro x hx
        have := dedupLimited_notMem_seen (b - 1) (dedupKey q :: seen) rest x hx
        intro hev
        exact this (hev ▸ List.mem_cons_self _ _)

theorem dedupLimited_length :
    ∀ (b : Nat) (seen : List (Str × Str)) (l : List CodePattern), 1 ≤ b →
      (dedupLimited b seen l).length ≤ b
  | b, seen, [], hb => by simp [dedupLimited]
  | b, seen, q :: rest, hb => by
    rw [dedupLimited]
    by_cases h : dedupKey q ∈ seen
    · rw [if_pos h]
      exact dedupLimited_length b seen rest hb
    · rw [if_neg h]
      by_cases hb1 : b ≤ 1
      · rw [if_pos hb1]
        simpa using hb
      · rw [if_neg hb1]
        have := dedupLimited_length (b - 1) (dedupKey q :: seen) rest (by omega)
        simp only [List.length_cons]
        omega

/-! ## Reduction of `retrieve_similar_patterns` -/

theorem retrieve_ok_inv {Col Emb : Type} {env api : Option Str}
    {getDb : Except PyExc Col} {embed : Str → Except PyExc Emb}
    {query : Col → Emb → Nat → Option Str → Except PyExc QueryResult}
    {fcs : List FileChange} {k : Nat} {θ : ℚ} {col : Col} {l : List CodePattern}
    (hdb : getDb = .ok col)
    (h : retrieve_similar_patterns env api getDb embed query fcs k θ = .ok l) :
    l = (dedupLimited (k * 3) []
      (sortBySimDesc (pooledPatterns embed (query col) θ k fcs))).take (k * 2) := by
  unfold retrieve_similar_patterns at h
  cases hcfg : configure_gemini api env with
  | error e =>
    rw [hcfg] at h
    simp at h
  | ok u =>
    cases u
    rw [hcfg, hdb] at h
    simpa using h.symm

/-! ## C5: sorted, deduplicated, bounded output -/

/-- C5. A successful `retrieve_similar_patterns` result is sorted descending
by similarity score, has pairwise-distinct dedup keys
`(file_path, first 100 snippet characters)`, and holds at most `2 * top_k`
entries; for positive `top_k` the dedup scan collects at most `3 * top_k`
unique entries. -/
theorem c5_sorted_dedup_bounded {Col Emb : Type} (env api : Option Str)
    (getDb : Except PyExc Col) (embed : Str → Except PyExc Emb)
    (query : Col → Emb → Nat → Option Str → Except PyExc QueryResult)
    (fcs : List FileChange) (k : Nat) (θ : ℚ) (col : Col) (l : List CodePattern)
    (hdb : getDb = .ok col)
    (h : retrieve_similar_patterns env api getDb embed query fcs k θ = .ok l) :
    l.Pairwise (fun a b => b.similarity_score ≤ a.similarity_score) ∧
    l.Pairwise (fun a b => dedupKey a ≠ dedupKey b) ∧
    l.length ≤ k * 2 ∧
    (1 ≤ k →
      (dedupLimited (k * 3) []
        (sortBySimDesc (pooledPatterns embed (query col) θ k fcs))).length ≤ k * 3) := by
  obtain rfl := retrieve_ok_inv hdb h
  refine ⟨?_, ?_, List.length_take_le _ _, fun hk => dedupLimited_length _ _ _ (by omega)⟩
  · exact List.Pairwise.sublist
      ((List.take_sublist _ _).trans (dedupLimited_sublist _ _ _))
      (sorted_sortBySimDesc _)
  · exact List.Pairwise.sublist (List.take_sublist _ _) (dedupLimited_pairwise _ _ _)

/-- A concrete successful retrieval run with one neighbor at distance 0:
the single added line of `wRetFC`'s hunk forms a long-enough snippet, the
embedding and query succeed, and the neighbor (similarity `1 - 0`, threshold
0, stored path absent hence different from `"ab"`) survives as `wPat`. -/
theorem retrieve_nonempty_run :
    @retrieve_similar_patterns Unit Unit (some "k".toList) none (.ok ()) (fun _ => .ok ())
      (fun _ _ _ _ => .ok wQR) [wRetFC] 5 0 = .ok [wPat] := by
  have h1 : @hunkPatterns Unit (fun _ => .ok ()) (fun _ _ _ => .ok wQR) 0 5
      "ab".toList wLongHunk = [wPat] := by
    simp only [hunkPatterns]
    rw [if_neg (by decide), if_neg (by decide)]
    simp only [processQueryResult, wQR, zip4, keepNeighbor, List.filterMap]
    norm_num
    simp [wPat]
  simp only [retrieve_similar_patterns]
  rw [show configure_gemini none (some "k".toList) = .ok () from rfl]
  simp only [pooledPatterns, wRetFC, concatMap, h1]
  simp [sortBySimDesc, insertDesc, dedupLimited, dedupKey]

/-- Witness for C5 on the concrete nonempty run `retrieve_nonempty_run`. -/
theorem c5_sorted_dedup_bounded_wit :
    [wPat].Pairwise (fun a b => b.similarity_score ≤ a.similarity_score) ∧
    [wPat].Pairwise (fun a b => dedupKey a ≠ dedupKey b) ∧
    [wPat].length ≤ 5 * 2 ∧
    (1 ≤ 5 →
      (dedupLimited (5 * 3) []
        (sortBySimDesc (@pooledPatterns Unit (fun _ => .ok ())
          ((fun _ _ _ _ => .ok wQR : Unit → Unit → Nat → Option Str →
            Except PyExc QueryResult) ()) 0 5 [wRetFC]))).length ≤ 5 * 3) :=
  @c5_sorted_dedup_bounded Unit Unit (some "k".toList) none (.ok ()) (fun _ => .ok ())
    (fun _ _ _ _ => .ok wQR) [wRetFC] 5 0 () [wPat] rfl retrieve_nonempty_run

/-! ## C6: threshold and self-exclusion -/

theorem processQueryResult_good {path : Str} {θ : ℚ} {qr : QueryResult}
    {lst : List CodePattern} (hq : processQueryResult path θ qr = some lst) :
    ∀ p ∈ lst, ∃ dist doc meta, θ ≤ 1 - dist ∧
      meta.file_path ≠ some path ∧ p = mkCodePattern dist doc meta := by
  intro p hp
  unfold processQueryResult at hq
  cases hids : qr.ids with
  | nil =>
    rw [hids] at hq
    obtain rfl : ([] : List CodePattern) = lst := by simpa using hq
    simp at hp
  | cons ids0 idsr =>
    rw [hids] at hq
    simp only at hq
    by_cases hlen : ids0.length = 0
    · rw [if_pos hlen] at hq
      obtain rfl : ([] : List CodePattern) = lst := by simpa using hq
      simp at hp
    · rw [if_neg hlen] at hq
      cases hd : qr.distances with
      | nil => rw [hd] at hq; simp at hq
      | cons d0 dr =>
        cases hdoc : qr.documents with
        | nil => rw [hd, hdoc] at hq; simp at hq
        | cons doc0 docr =>
          cases hm : qr.metadatas with
          | nil => rw [hd, hdoc, hm] at hq; simp at hq
          | cons m0 mr =>
            rw [hd, hdoc, hm] at hq
            obtain rfl : (zip4 ids0 d0 doc0 m0).filterMap (keepNeighbor path θ) = lst := by
              simpa using hq
            obtain ⟨e, -, he⟩ := List.mem_filterMap.mp hp
            obtain ⟨id, dist, doc, meta⟩ := e
            unfold keepNeighbor at he
            simp only at he
            by_cases hθ : θ ≤ 1 - dist
            · rw [if_pos hθ] at he
              by_cases hself : meta.file_path = some path
              · rw [if_pos hself] at he
                simp at he
              · rw [if_neg hself] at he
                obtain rfl : mkCodePattern dist doc meta = p := by simpa using he
                exact ⟨dist, doc, meta, hθ, hself, rfl⟩
            · rw [if_neg hθ] at he
              simp at he

theorem hunkPatterns_good {Emb : Type} (embed : Str → Except PyExc Emb)
    (query : Emb → Nat → Option Str → Except PyExc QueryResult)
    (θ : ℚ) (k : Nat) (path : Str) (hk : DiffHunk) :
    ∀ p ∈ hunkPatterns embed query θ k path hk, ∃ dist doc meta, θ ≤ 1 - dist ∧
      meta.file_path ≠ some path ∧ p = mkCodePattern dist doc meta := by
  intro p hp
  simp only [hunkPatterns] at hp
  by_cases h1 : addedLines hk.content = []
  · rw [if_pos h1] at hp
    simp at hp
  · rw [if_neg h1] at hp
    by_cases h2 : (pyStrip (joinN (addedLines hk.content))).length < 50
    · rw [if_pos h2] at hp
      simp at hp
    · rw [if_neg h2] at hp
      cases hE : embed (joinN (addedLines hk.content)) with
      | error e => rw [hE] at hp; simp at hp
      | ok emb =>
        rw [hE] at hp
        simp only at hp
        cases hQ : query emb k (repoFilter path) with
        | error e => rw [hQ] at hp; simp at hp
        | ok qr =>
          rw [hQ] at hp
          simp only at hp
          cases hPQ : processQueryResult path θ qr with
          | none => rw [hPQ] at hp; simp at hp
          | some lst =>
            rw [hPQ] at hp
            exact processQueryResult_good hPQ p (by simpa using hp)

theorem pooled_good {Emb : Type} (embed : Str → Except PyExc Emb)
    (query : Emb → Nat → Option Str → Except PyExc QueryResult)
    (θ : ℚ) (k : Nat) (fcs : List FileChange) :
    ∀ p ∈ pooledPatterns embed query θ k fcs, ∃ fc ∈ fcs, ∃ dist doc meta,
      θ ≤ 1 - dist ∧ meta.file_path ≠ some fc.path ∧ p = mkCodePattern dist doc meta := by
  intro p hp
  obtain ⟨fc, hfc, hp2⟩ := mem_concatMap.mp hp
  obtain ⟨hk, -, hp3⟩ := mem_concatMap.mp hp2
  obtain ⟨dist, doc, meta, hθ, hne, rfl⟩ := hunkPatterns_good embed query θ k fc.path hk p hp3
  exact ⟨fc, hfc, dist, doc, meta, hθ, hne, rfl⟩

/-- C6. Every pattern in a successful `retrieve_similar_patterns` result has
`similarity_score = 1 - distance` at least the threshold and comes from a
neighbor whose stored metadata path differs from the changed file's own path
(below-threshold or same-path neighbors are never emitted). -/
theorem c6_threshold_self_exclusion {Col Emb : Type} (env api : Option Str)
    (getDb : Except PyExc Col) (embed : Str → Except PyExc Emb)
    (query : Col → Emb → Nat → Option Str → Except PyExc QueryResult)
    (fcs : List FileChange) (k : Nat) (θ : ℚ) (col : Col) (l : List CodePattern)
    (hdb : getDb = .ok col)
    (h : retrieve_similar_patterns env api getDb embed query fcs k θ = .ok l) :
    allOf (goodPattern θ fcs) l := by
  obtain rfl := retrieve_ok_inv hdb h
  rw [allOf_iff]
  intro p hp
  have hp1 := List.take_subset _ _ hp
  have hp2 := (dedupLimited_sublist _ _ _).subset hp1
  have hp3 := mem_sortBySimDesc.mp hp2
  obtain ⟨fc, hfc, dist, doc, meta, hθ, hne, rfl⟩ :=
    pooled_good embed (query col) θ k fcs p hp3
  refine ⟨?_, fc, hfc, dist, doc, meta, hθ, hne, rfl⟩
  simpa [mkCodePattern] using hθ

/-- Witness for C6 on the concrete nonempty run `retrieve_nonempty_run`. -/
theorem c6_threshold_self_exclusion_wit :
    allOf (goodPattern 0 [wRetFC]) [wPat] :=
  @c6_threshold_self_exclusion Unit Unit (some "k".toList) none
    (.ok ()) (fun _ => .ok ()) (fun _ _ _ _ => .ok wQR) [wRetFC] 5 0 () [wPat]
    rfl retrieve_nonempty_run

/-! ## C2: exception propagation -/

/-- Counterexample to C2 as stated: with no Gemini API key available
(explicit argument and environment both absent), `retrieve_similar_patterns`
propagates `configure_gemini`'s `ValueError` to its caller instead of
returning an empty list — even for an empty input and a perfectly usable
index. -/
theorem c2_counterexample :
    @retrieve_similar_patterns Unit Unit none none (.ok ())
      (fun _ => .ok ()) (fun _ _ _ _ => .ok ⟨[], [], [], []⟩) [] 5 0 =
      .error (.valueError keyErrMsg) := rfl

theorem hunkPatterns_embed_fail {Emb : Type} (embed : Str → Except PyExc Emb)
    (query : Emb → Nat → Option Str → Except PyExc QueryResult)
    (θ : ℚ) (k : Nat) (path : Str) (hk : DiffHunk)
    (hemb : ∀ s, exceptOk (embed s) = false) :
    hunkPatterns embed query θ k path hk = [] := by
  simp only [hunkPatterns]
  by_cases h1 : addedLines hk.content = []
  · rw [if_pos h1]
  · rw [if_neg h1]
    by_cases h2 : (pyStrip (joinN (addedLines hk.content))).length < 50
    · rw [if_pos h2]
    · rw [if_neg h2]
      cases hE : embed (joinN (addedLines hk.content)) with
      | error e => rfl
      | ok emb =>
        have := hemb (joinN (addedLines hk.content))
        rw [hE] at this
        simp [exceptOk] at this

/-- C2 (amended). Once the initial configuration succeeds (a non-empty
Gemini key is available and the vector DB handle is obtained), no exception
escapes `retrieve_similar_patterns`: per-hunk embedding/query failures are
swallowed, and if every embedding call fails the result is `.ok []`.
Configuration failures themselves (missing key, DB initialization) do
propagate — they run before the `try`-protected loop. -/
theorem c2_amended {Col Emb : Type} (env api : Option Str)
    (getDb : Except PyExc Col) (embed embedBad : Str → Except PyExc Emb)
    (query : Col → Emb → Nat → Option Str → Except PyExc QueryResult)
    (fcs : List FileChange) (k : Nat) (θ : ℚ) (col : Col)
    (hc : configure_gemini api env = .ok ()) (hdb : getDb = .ok col)
    (hembBad : ∀ s, exceptOk (embedBad s) = false) :
    exceptOk (retrieve_similar_patterns env api getDb embed query fcs k θ) = true ∧
    retrieve_similar_patterns env api getDb embedBad query fcs k θ = .ok [] := by
  constructor
  · simp only [retrieve_similar_patterns, hc, hdb]
    rfl
  · simp only [retrieve_similar_patterns, hc, hdb]
    have hpool : pooledPatterns embedBad (query col) θ k fcs = [] := by
      apply concatMap_eq_nil
      intro fc _
      apply concatMap_eq_nil
      intro hk _
      exact hunkPatterns_embed_fail embedBad (query col) θ k fc.path hk hembBad
    rw [hpool]
    simp [sortBySimDesc, dedupLimited]

/-- Witness for C2's amended statement: a usable key and DB, an
always-failing embedder, and the concrete parsed file change `w4FC` — the
run returns `.ok` (and `.ok []` for the failing embedder). -/
theorem c2_amended_wit :
    exceptOk (@retrieve_similar_patterns Unit Unit (some "k".toList) none
      (.ok ()) (fun _ => .error (.exc 0)) (fun _ _ _ _ => .ok ⟨[], [], [], []⟩)
      [w4FC] 5 0) = true ∧
    @retrieve_similar_patterns Unit Unit (some "k".toList) none
      (.ok ()) (fun _ => .error (.exc 0)) (fun _ _ _ _ => .ok ⟨[], [], [], []⟩)
      [w4FC] 5 0 = .ok [] :=
  c2_amended (some "k".toList) none (.ok ()) (fun _ => .error (.exc 0))
    (fun _ => .error (.exc 0)) (fun _ _ _ _ => .ok ⟨[], [], [], []⟩)
    [w4FC] 5 0 () rfl rfl (fun _ => rfl)
